import Mathlib

/-!
Verification of the section extraction and merge engine of the
macprefs-website documentation sync pipeline
(`scripts/transform-migration-docs.ts`, plus the blockquote conversion of
`transform-config-docs.ts`).

Strings are modelled as `List Char`.  The JavaScript regular expressions used
by the engine are all of a handful of fixed shapes (line-anchored literals,
blockquote rewrites, the frontmatter/import matchers); each is translated
into an explicit scanning function that follows the semantics of the concrete
regex, assuming LF-normalized text (no carriage returns) and modelling the
`\s` class by its ASCII members that occur in this data: space, tab, newline.
-/

namespace DocsSync

abbrev Str := List Char

/-- The whitespace class used by the engine's regexes and by `String.trim`,
restricted to the ASCII whitespace occurring in LF-normalized markdown. -/
def isWs (c : Char) : Bool := c == ' ' || c == '\t' || c == '\n'

/-- `String.prototype.trimEnd`: remove trailing whitespace. -/
def trimRight : Str → Str
  | [] => []
  | c :: s =>
    match trimRight s with
    | [] => if isWs c then [] else [c]
    | t => c :: t

/-- `String.prototype.trim`: remove leading and trailing whitespace. -/
def trimStr (s : Str) : Str := trimRight (s.dropWhile isWs)

/-- `^` with the `m` flag: position `i` starts a line (start of text, or the
previous character is a newline). -/
def lineStartB (s : Str) (i : Nat) : Bool := i == 0 || s[i-1]? == some '\n'

/-- `$` with the `m` flag: position `i` ends a line (end of text, or the
character at `i` is a newline). -/
def lineEndB (s : Str) (i : Nat) : Bool := i == s.length || s[i]? == some '\n'

/-- First index `i` with `start ≤ i < start + fuel` satisfying `p`,
scanning candidates from the left like the JS regex engine. -/
def scanFirst (p : Nat → Bool) : Nat → Nat → Option Nat
  | _, 0 => none
  | i, f+1 => if p i then some i else scanFirst p (i+1) f

/-- A match of the full-line regex `/^pat$/m` at index `i` of `s`. -/
def hitB (s pat : Str) (i : Nat) : Bool :=
  lineStartB s i && pat.isPrefixOf (s.drop i) && lineEndB s (i + pat.length)

/-- `s.match(/^pat$/m)`: index of the first full-line occurrence of `pat`. -/
def findLine (s pat : Str) : Option Nat :=
  scanFirst (hitB s pat) 0 (s.length + 1)

/-- `s.match(new RegExp('^' + escape(pat), 'm'))`: index of the first
line-anchored occurrence of the literal `pat` (prefix of a line, no `$`). -/
def findAnchored (s pat : Str) : Option Nat :=
  scanFirst (fun i => lineStartB s i && pat.isPrefixOf (s.drop i)) 0 (s.length + 1)

/-- `extractSection` of transform-migration-docs.ts.  The boundary regexes in
the `SECTIONS` table are all of the shape `/^literal$/m`, so the boundaries
are modelled as the literal heading lines. -/
def extractSection (content startB : Str) (endB : Option Str) : Str :=
  match findLine content startB with
  | none => []
  | some i =>
    let afterStart := content.drop (i + startB.length)
    let endIdx :=
      match endB with
      | none => content.length
      | some e =>
        match findLine afterStart e with
        | some j => i + startB.length + j
        | none => content.length
    trimStr ((content.take endIdx).drop i)

/-- Spec-side full-line match predicate, written with an explicit
take-and-compare instead of `isPrefixOf`. -/
def hitSpecB (s pat : Str) (i : Nat) : Bool :=
  lineStartB s i && ((s.drop i).take pat.length == pat) && lineEndB s (i + pat.length)

/-- Spec-side first hit: the least index below `n` satisfying `p`, selected
from the candidate list. -/
def firstHit (p : Nat → Bool) (n : Nat) : Option Nat :=
  ((List.range n).filter p).head?

/-- Modelled from the spec (section 4.1): `locate(sourceText, startBoundary,
endBoundary?)` — the substring from the first full-line match of the start
boundary (heading included) up to the character before the first match of the
end boundary in the remainder, or end of text, trimmed at both ends; empty
when the start boundary has no match. -/
def locateSpec (content startB : Str) (endB : Option Str) : Str :=
  match firstHit (hitSpecB content startB) (content.length + 1) with
  | none => []
  | some i =>
    let afterStart := content.drop (i + startB.length)
    let stop :=
      match endB with
      | none => content.length
      | some e =>
        match firstHit (hitSpecB afterStart e) (afterStart.length + 1) with
        | some j => i + startB.length + j
        | none => content.length
    trimStr ((content.drop i).take (stop - i))

/-! ### Content normalizer: blockquote → Aside rewrites

The passes model `String.prototype.replace` with the global+multiline regexes
`/^>\s*\*\*Label:\*\*\s*(.+)$/gm` (transform-migration-docs.ts
`processContent`) and `/^>\s*(.+)$/gm` with the skip-`<Aside` callback
(transform-config-docs.ts `convertBlockquotesToAsides`).  The scan emits
characters left to right; at each line start beginning with `>`, the rest of
the pattern is tried; on success the replacement is emitted and the scan
resumes after the match (the replacement itself is never rescanned within the
same pass). -/

/-- Largest index of a character other than a newline in `run`. -/
def lastIdxNonNl (run : Str) : Option Nat :=
  (run.reverse.findIdx? (fun c => c != '\n')).map (fun k => run.length - 1 - k)

/-- Backtracking of the trailing `\s*(.+)$` of the blockquote regexes when the
maximal whitespace run reaches a line end: the group must start at the last
position of the run holding a non-newline (space or tab) character.  Returns
the split point, the group, and the remainder. -/
def bqBacktrack (run : Str) : Option (Nat × Str × Str) :=
  match lastIdxNonNl run with
  | none => none
  | some p =>
    let tail := run.drop p
    let g := tail.takeWhile (fun c => c != '\n')
    some (p, g, tail.drop g.length)

/-- Attempt of `\s*label\s*(.+)$` on the text `s` following a line-initial
`>`.  Returns the captured group and the remainder after the match. -/
def typedMatch (label s : Str) : Option (Str × Str) :=
  let r1 := s.dropWhile isWs
  if label.isPrefixOf r1 then
    let r2 := r1.drop label.length
    let run := r2.takeWhile isWs
    let r3 := r2.drop run.length
    match r3 with
    | [] =>
      match bqBacktrack run with
      | none => none
      | some (_, g, rem) => some (g, rem)
    | _ =>
      let g := r3.takeWhile (fun c => c != '\n')
      some (g, r3.drop g.length)
  else none

/-- Attempt of `\s*(.+)$` on the text following a line-initial `>`, also
returning the whitespace consumed before the group so the full matched text
can be reproduced. -/
def genericMatch (s : Str) : Option (Str × Str × Str) :=
  let run := s.takeWhile isWs
  let r := s.drop run.length
  match r with
  | [] =>
    match bqBacktrack run with
    | none => none
    | some (p, g, rem) => some (run.take p, g, rem)
  | _ =>
    let g := r.takeWhile (fun c => c != '\n')
    some (run, g, r.drop g.length)

/-- The replacement text `<Aside type="t">\n$1\n</Aside>`. -/
def asideRepl (t g : Str) : Str :=
  "<Aside type=\"".data ++ t ++ "\">\n".data ++ g ++ "\n</Aside>".data

/-- One global replace pass for a typed blockquote label. -/
def typedPassAux (label atype : Str) : Nat → Bool → Str → Str
  | 0, _, s => s
  | _+1, _, [] => []
  | f+1, atStart, c :: rest =>
    if atStart && c == '>' then
      match typedMatch label rest with
      | some (g, rem) => asideRepl atype g ++ typedPassAux label atype f false rem
      | none => c :: typedPassAux label atype f false rest
    else
      c :: typedPassAux label atype f (c == '\n') rest

def typedPass (label atype s : Str) : Str :=
  typedPassAux label atype (s.length + 1) true s

/-- The generic blockquote pass of `convertBlockquotesToAsides`: any remaining
`^>\s*(.+)$` line becomes a note Aside, unless the body already starts with
`<Aside`, in which case the matched text is kept unchanged. -/
def genericPassAux : Nat → Bool → Str → Str
  | 0, _, s => s
  | _+1, _, [] => []
  | f+1, atStart, c :: rest =>
    if atStart && c == '>' then
      match genericMatch rest with
      | some (w, g, rem) =>
        (if "<Aside".data.isPrefixOf g then '>' :: (w ++ g)
         else asideRepl "note".data g) ++ genericPassAux f false rem
      | none => c :: genericPassAux f false rest
    else
      c :: genericPassAux f (c == '\n') rest

def genericPass (s : Str) : Str := genericPassAux (s.length + 1) true s

/-- `processContent` of transform-migration-docs.ts: the four typed
blockquote rewrites, in source order. -/
def processContent (s : Str) : Str :=
  typedPass "**Caution:**".data "caution".data
    (typedPass "**Warning:**".data "caution".data
      (typedPass "**Tip:**".data "tip".data
        (typedPass "**Note:**".data "note".data s)))

/-- `convertBlockquotesToAsides` of transform-config-docs.ts: the four typed
rewrites followed by the generic fallback. -/
def convertBlockquotesToAsides (s : Str) : Str :=
  genericPass
    (typedPass "**Caution:**".data "caution".data
      (typedPass "**Warning:**".data "caution".data
        (typedPass "**Tip:**".data "tip".data
          (typedPass "**Note:**".data "note".data s))))

/-- `true` when no line of `s` begins with a blockquote marker `>` (given
whether the scan position starts a line). -/
def noBq : Bool → Str → Bool
  | _, [] => true
  | atStart, c :: rest => !(atStart && c == '>') && noBq (c == '\n') rest

/-! ### Destination resolver and frontmatter -/

/-- The apostrophe character, built explicitly. -/
def apos : Char := Char.ofNat 39

/-- The literal `import { Aside } from '@astrojs/starlight/components';`. -/
def importStmt : Str :=
  "import \x7b Aside \x7d from ".data ++ apos ::
    ("@astrojs/starlight/components".data ++ apos :: ";".data)

/-- `generateFrontmatter` of transform-migration-docs.ts. -/
def generateFrontmatter (title desc : Str) : Str :=
  "---\ntitle: \"".data ++ title ++ "\"\ndescription: \"".data ++ desc ++
    "\"\n---\n\n".data ++ importStmt ++ ['\n']

/-- Length of the match of `/^(\s*import\s+[^;]+;\s*)+/` at the start of `s`,
or `none` when no iteration succeeds.  Each iteration consumes optional
whitespace, the literal `import`, at least one whitespace character, a
nonempty run of non-semicolon characters, and the first semicolon; the final
iteration also consumes its trailing whitespace. -/
def importChain : Nat → Str → Option Nat
  | 0, _ => none
  | f+1, s =>
    let w := (s.takeWhile isWs).length
    let r := s.drop w
    if "import".data.isPrefixOf r then
      let r2 := r.drop 6
      let w2 := (r2.takeWhile isWs).length
      let body := (r2.takeWhile (fun c => c != ';')).length
      if 1 ≤ w2 ∧ 2 ≤ body ∧ r2.drop body ≠ [] then
        let k := w + 6 + body + 1
        match importChain f (s.drop k) with
        | some n => some (k + n)
        | none => some (k + ((s.drop k).takeWhile isWs).length)
      else none
    else none

/-- `readExistingFrontmatter` of transform-migration-docs.ts, over the
optional stored content of the destination (`none` = file does not exist).
The frontmatter regex (anchored `---` fence, lazy body, closing `\n---`)
requires the content to start with `---\n` and takes the lazily-shortest body
up to the next `\n---`. -/
def readExistingFrontmatter : Option Str → Option Str
  | none => none
  | some content =>
    if "---\n".data.isPrefixOf content then
      match scanFirst (fun j => "\n---".data.isPrefixOf (content.drop j)) 4
          (content.length + 1) with
      | none => none
      | some j =>
        let fm := content.take (j + 4)
        let afterFm := content.drop (j + 4)
        match importChain (afterFm.length + 1) afterFm with
        | some n => some (fm ++ '\n' :: (trimStr (afterFm.take n) ++ ['\n']))
        | none => some (fm ++ '\n' :: '\n' :: (importStmt ++ ['\n']))
    else none

/-! ### Merge strategies and the write step -/

/-- `mergeSection` of transform-migration-docs.ts. -/
def mergeSection (existingContent newContent sectionMarker : Str) : Str :=
  match findAnchored existingContent sectionMarker with
  | none =>
    trimStr existingContent ++ '\n' :: '\n' :: (trimStr newContent ++ ['\n'])
  | some i =>
    let beforeMarker := existingContent.take i
    let afterMarkerStart := existingContent.drop (i + sectionMarker.length)
    let afterSection :=
      match findAnchored afterMarkerStart "## ".data with
      | some j => afterMarkerStart.drop j
      | none => []
    trimStr beforeMarker ++ '\n' :: '\n' ::
      (trimStr newContent ++ '\n' :: '\n' :: (trimStr afterSection ++ ['\n']))

inductive Strategy
  | replace
  | create
  | mergeSec
deriving DecidableEq

/-- The observable outcome of `writeMdxFile`: the success log line of the
merge branch, the success log line of the replace/create branch, or no write
at all.  The function has no other report channel. -/
inductive Outcome
  | merged
  | wrote
  | skipped
deriving DecidableEq

/-- `writeMdxFile` of transform-migration-docs.ts, as a function from the
optional existing stored content to the stored content after the call plus
the observable outcome.  The merge branch requires a nonempty marker (an
empty string is falsy in the JS condition) and an existing file; otherwise
the replace/create branch runs whenever the strategy is `replace` or
`create`, or the file does not exist; otherwise nothing is written. -/
def writeMdx (existing : Option Str) (title desc content : Str)
    (strategy : Strategy) (marker : Option Str) : Str × Outcome :=
  let processed := processContent content
  match strategy, marker, existing with
  | .mergeSec, some (c :: ms), some ex =>
    (mergeSection ex processed (c :: ms), .merged)
  | s, _, ex? =>
    if s = .replace ∨ s = .create ∨ ex? = none then
      let fm := (readExistingFrontmatter ex?).getD (generateFrontmatter title desc)
      (fm ++ '\n' :: (processed ++ ['\n']), .wrote)
    else
      (ex?.getD [], .skipped)

/-! ### Occurrence counting -/

/-- Number of substring occurrences of `pat` in `s` (occurrence positions,
including the end-of-string position for the empty pattern). -/
def countSub (pat : Str) : Str → Nat
  | [] => if pat.isPrefixOf [] then 1 else 0
  | c :: s => (if pat.isPrefixOf (c :: s) then 1 else 0) + countSub pat s

/-- Number of line-anchored occurrences of `pat` in `s`, given whether the
current position starts a line: positions where a line begins with `pat`,
i.e. where the regex `^pat` with the `m` flag matches. -/
def countAnch (pat : Str) : Bool → Str → Nat
  | atStart, [] => if atStart && pat.isPrefixOf [] then 1 else 0
  | atStart, c :: s =>
    (if atStart && pat.isPrefixOf (c :: s) then 1 else 0) + countAnch pat (c == '\n') s

/-- Line-anchored occurrences of `pat` in a whole document. -/
def countAnchored (pat s : Str) : Nat := countAnch pat true s

/-! ### Concrete inputs used in the counterexamples and bug witnesses -/

/-- A destination document that does not contain the subsection marker
`## Sync` of its section definition (the shape of
`guides/power-users.mdx` in the January 2026 incident, where the marker
`## Multi-Mac Sync` was missing). -/
def doc1 : Str := "## Intro\nhi".data

/-- The extracted (already normalized) section content; its own heading
differs from the subsection marker, as in the real configuration. -/
def sec1 : Str := "## Dots\nstuff".data

def marker1 : Str := "## Sync".data

/-- One pipeline application of the merge-section strategy for the fixed
section input `sec1`, as a function of the stored destination state. -/
def applyMerge1 (d : Option Str) : Str :=
  (writeMdx d "T".data "D".data sec1 .mergeSec (some marker1)).fst

/-- An existing destination with a frontmatter header and a manually edited
body. -/
def doc2 : Str := "---\nt: X\n---\n\nManual edits here".data

/-- A destination whose prose before the marker ends in extra blank lines and
whose tail carries trailing whitespace. -/
def doc3 : Str := "A\n\n\n## M\nold\n## B\nC\n\n".data

def sec3 : Str := "## M\nnew".data

def marker3 : Str := "## M".data

/-- A destination that already contains the marker heading twice. -/
def doc5 : Str := "## M\nold\n## M\nold2".data

/-- Input whose blockquote body itself starts another labelled blockquote. -/
def bq7a : Str := "> **Note:** > **Note:** y".data

/-- Input whose blockquote body itself starts with a blockquote marker. -/
def bq7b : Str := "> > x".data

/-- A fenced code block one line of which looks like a labelled blockquote. -/
def fence8 : Str := "```\n> **Note:** x\n```".data

/-- A destination document that does contain the subsection marker. -/
def doc4 : Str := "x\n## Sync\ny\n## Z\nw".data

/-- A labelled blockquote whose body is ordinary prose. -/
def bq7w : Str := "> **Tip:** use maps\ntext".data

/-- Headings, prose and a code fence, with no blockquote lines. -/
def clean8 : Str := "## Head\nplain\n```\ncode\n```".data

/-- A normalized section input that re-supplies the subsection marker as its
first line. -/
def sec5w : Str := "## Sync\nfresh".data

/-- A destination with prose, the marker, an owned region, and a tail section. -/
def ex3w : Str := "Pre\n## M\nmid\n## Next\ntail".data

/-- A destination whose frontmatter itself contains a line matching the
subsection marker (a legal YAML comment line), followed by a body. -/
def doc9 : Str := "---\n## Sync\n---\n\nBody".data

/-- The metadata header block of `doc9` (what the frontmatter regex of
`readExistingFrontmatter` matches on it). -/
def hdr9 : Str := "---\n## Sync\n---".data

/-- A normalized section input for the merge into `doc9`. -/
def sec9 : Str := "## Sync\nnew".data

/-! ### Basic lemmas about `List.isPrefixOf` on `Str` -/

theorem pOf_append (p a b : Str) (h : p.isPrefixOf a = true) :
    p.isPrefixOf (a ++ b) = true := by
  induction p generalizing a with
  | nil => simp [List.isPrefixOf]
  | cons c cs ih =>
    cases a with
    | nil => simp [List.isPrefixOf] at h
    | cons x xs =>
      simp only [List.isPrefixOf, Bool.and_eq_true] at h ⊢
      exact ⟨h.1, ih xs h.2⟩

theorem pOf_refl (p : Str) : p.isPrefixOf p = true := by
  induction p with
  | nil => rfl
  | cons c cs ih => simp [List.isPrefixOf, ih]

theorem pOf_self (a b : Str) : a.isPrefixOf (a ++ b) = true :=
  pOf_append a a b (pOf_refl a)

theorem pOf_take (p l : Str) (n : Nat) (h : p.isPrefixOf (l.take n) = true) :
    p.isPrefixOf l = true := by
  have h2 := pOf_append p (l.take n) (l.drop n) h
  rwa [List.take_append_drop] at h2

theorem pOf_decomp (p l : Str) (h : p.isPrefixOf l = true) :
    l = p ++ l.drop p.length := by
  induction p generalizing l with
  | nil => simp
  | cons c cs ih =>
    cases l with
    | nil => simp [List.isPrefixOf] at h
    | cons x xs =>
      simp only [List.isPrefixOf, Bool.and_eq_true, beq_iff_eq] at h
      obtain ⟨hcx, hcs⟩ := h
      subst hcx
      simpa using ih xs hcs

theorem pOf_iff_takeEq (p l : Str) : p.isPrefixOf l = decide (l.take p.length = p) := by
  induction p generalizing l with
  | nil => simp [List.isPrefixOf]
  | cons c cs ih =>
    cases l with
    | nil => simp [List.isPrefixOf]
    | cons x xs =>
      simp only [List.isPrefixOf, List.length_cons, List.take_succ_cons]
      rw [ih]
      by_cases h1 : c = x
      · subst h1
        by_cases h2 : xs.take cs.length = cs
        · simp [h2]
        · simp [h2]
      · simp [h1, Ne.symm h1]

theorem sOf_self (a b : Str) : b.isSuffixOf (a ++ b) = true := by
  unfold List.isSuffixOf
  rw [List.reverse_append]
  exact pOf_self _ _

/-! ### Characterization of the scanners -/

theorem scanFirst_some (p : Nat → Bool) :
    ∀ f i r, scanFirst p i f = some r →
      p r = true ∧ i ≤ r ∧ r < i + f ∧ ∀ k, i ≤ k → k < r → p k = false := by
  intro f
  induction f with
  | zero => intro i r h; simp [scanFirst] at h
  | succ f ih =>
    intro i r h
    rw [scanFirst] at h
    by_cases hp : p i
    · rw [if_pos hp] at h
      obtain rfl : i = r := by simpa using h
      exact ⟨hp, Nat.le_refl _, by omega, fun k hk1 hk2 => by omega⟩
    · rw [if_neg hp] at h
      obtain ⟨h1, h2, h3, h4⟩ := ih (i+1) r h
      refine ⟨h1, by omega, by omega, fun k hk1 hk2 => ?_⟩
      rcases Nat.eq_or_lt_of_le hk1 with heq | hlt
      · subst heq; simpa using hp
      · exact h4 k hlt hk2

theorem scanFirst_of (p : Nat → Bool) :
    ∀ f i r, i ≤ r → r < i + f → p r = true →
      (∀ k, i ≤ k → k < r → p k = false) → scanFirst p i f = some r := by
  intro f
  induction f with
  | zero => intro i r h1 h2; omega
  | succ f ih =>
    intro i r h1 h2 hp hmin
    rw [scanFirst]
    rcases Nat.eq_or_lt_of_le h1 with heq | hlt
    · subst heq; rw [if_pos hp]
    · rw [if_neg (by simpa using hmin i (Nat.le_refl _) hlt)]
      exact ih (i+1) r hlt (by omega) hp (fun k hk1 hk2 => hmin k (by omega) hk2)

theorem scanFirst_snoc (p : Nat → Bool) :
    ∀ f i, scanFirst p i (f+1) =
      match scanFirst p i f with
      | some r => some r
      | none => if p (i+f) then some (i+f) else none := by
  intro f
  induction f with
  | zero => intro i; simp [scanFirst]
  | succ f ih =>
    intro i
    rw [scanFirst]
    by_cases hp : p i
    · rw [if_pos hp]
      have : scanFirst p i (f+1) = some i := by rw [scanFirst, if_pos hp]
      rw [this]
    · rw [if_neg hp, ih (i+1)]
      have : scanFirst p i (f+1) = scanFirst p (i+1) f := by rw [scanFirst, if_neg hp]
      rw [this]
      have harith : i + 1 + f = i + (f+1) := by omega
      rw [harith]

theorem firstHit_succ (p : Nat → Bool) (n : Nat) :
    firstHit p (n+1) =
      match firstHit p n with
      | some r => some r
      | none => if p n then some n else none := by
  unfold firstHit
  rw [List.range_succ, List.filter_append]
  cases h : (List.range n).filter p with
  | nil =>
    by_cases hp : p n
    · simp [List.filter, hp]
    · simp [List.filter, hp]
  | cons a as => simp

theorem scanFirst_eq_firstHit (p : Nat → Bool) :
    ∀ n, scanFirst p 0 n = firstHit p n := by
  intro n
  induction n with
  | zero => rfl
  | succ n ih =>
    rw [scanFirst_snoc, firstHit_succ, ih]
    simp only [Nat.zero_add]

/-! ### C6: the Section Locator refines the spec contract -/

theorem beq_eq_decide (a b : Str) : (a == b) = decide (a = b) := by
  by_cases h : a = b
  · subst h; simp
  · simp [h]

theorem hit_eq_hitSpec (s pat : Str) : hitB s pat = hitSpecB s pat := by
  funext i
  unfold hitB hitSpecB
  rw [pOf_iff_takeEq, beq_eq_decide]

theorem findLine_eq_firstHit (s pat : Str) :
    findLine s pat = firstHit (hitSpecB s pat) (s.length + 1) := by
  unfold findLine
  rw [hit_eq_hitSpec]
  exact scanFirst_eq_firstHit _ _

theorem slice_take_drop (l : Str) (i n : Nat) (h : i ≤ n) :
    (l.take n).drop i = (l.drop i).take (n - i) := by
  have h2 : i + (n - i) = n := by omega
  rw [List.take_drop, h2]

/-- C6: `extractSection` satisfies the Locator contract: it returns the empty
string (and never throws) when the start boundary has no full-line match;
otherwise it returns the text from the start of the first start-boundary
match (heading included) up to the character before the first end-boundary
match in the remainder after the start match, or to end-of-text when the end
boundary is absent or unmatched, trimmed of whitespace at both ends. -/
theorem C6_locate_contract (content startB : Str) (endB : Option Str) :
    extractSection content startB endB = locateSpec content startB endB := by
  unfold extractSection locateSpec
  rw [← findLine_eq_firstHit]
  cases h : findLine content startB with
  | none => rfl
  | some i =>
    have h' := h
    unfold findLine at h'
    obtain ⟨-, -, h3, -⟩ := scanFirst_some _ _ _ _ h'
    have hi : i ≤ content.length := by omega
    cases endB with
    | none =>
      simp only
      rw [slice_take_drop content i content.length hi]
    | some e =>
      simp only
      rw [← findLine_eq_firstHit]
      cases h2 : findLine (content.drop (i + startB.length)) e with
      | none =>
        simp only
        rw [slice_take_drop content i content.length hi]
      | some j =>
        simp only
        rw [slice_take_drop content i (i + startB.length + j) (by omega)]

/-! ### C1, C2, C4: divergences of the code from the spec, evaluated at the
failing inputs -/

/-- C1: the claim that applying a strategy twice with the same section input
is byte-identical to applying it once fails on the code: for the
merge-section strategy on a destination that lacks its subsection marker,
every run appends the section again (the exact duplication defect recorded in
DOCS_SYNC_ISSUE.md), so the second application's output strictly grows and
contains the section heading twice. -/
theorem C1_rerun_not_idempotent :
    applyMerge1 (some (applyMerge1 (some doc1))) ≠ applyMerge1 (some doc1) ∧
    countSub "## Dots".data (applyMerge1 (some doc1)) = 1 ∧
    countSub "## Dots".data (applyMerge1 (some (applyMerge1 (some doc1)))) = 2 :=
  ⟨by decide, by decide, by decide⟩

/-- C2: the claim that the create strategy leaves an existing destination
untouched fails on the code: `strategy === 'create'` falls into the same
branch as `'replace'`, so an existing document's body is overwritten; the
stored content changes and is exactly what the replace strategy would have
written. -/
theorem C2_create_overwrites_existing :
    (writeMdx (some doc2) "T".data "D".data "New body".data .create none).fst ≠ doc2 ∧
    (writeMdx (some doc2) "T".data "D".data "New body".data .create none) =
      (writeMdx (some doc2) "T".data "D".data "New body".data .replace none) :=
  ⟨by decide, by decide⟩

/-- C4: the claim that a missing subsection marker (or missing destination)
is flagged as a degraded outcome fails on the code: the marker-not-found
append produces the same observable outcome as a successful merge, and a
missing destination produces the same outcome as a plain create — there is no
degraded/warning signal at all, while the content is silently appended. -/
theorem C4_degraded_paths_silent :
    (writeMdx (some doc1) "T".data "D".data sec1 .mergeSec (some marker1)).snd =
      (writeMdx (some doc4) "T".data "D".data sec1 .mergeSec (some marker1)).snd ∧
    (writeMdx (some doc1) "T".data "D".data sec1 .mergeSec (some marker1)).fst =
      trimStr doc1 ++ '\n' :: '\n' :: (trimStr (processContent sec1) ++ ['\n']) ∧
    (writeMdx none "T".data "D".data sec1 .mergeSec (some marker1)).snd =
      (writeMdx none "T".data "D".data sec1 .create none).snd :=
  ⟨by decide, by decide, by decide⟩

/-! ### Counterexamples for C3, C5, C7, C8 as stated -/

/-- C3: the claim that every byte before the owned range and from the next
top-level heading onward survives byte-for-byte fails on the code: the merge
trims each part, so the blank lines before the marker and the trailing
whitespace of the tail are not reproduced.  The marker of `doc3` is first
found at index 4 and the next `## ` heading of the remainder at offset 5, yet
neither the before-part nor the tail is reproduced verbatim. -/
theorem C3_counterexample :
    findAnchored doc3 marker3 = some 4 ∧
    findAnchored (doc3.drop (4 + marker3.length)) "## ".data = some 5 ∧
    (doc3.take 4).isPrefixOf (mergeSection doc3 sec3 marker3) = false ∧
    ((doc3.drop (4 + marker3.length)).drop 5).isSuffixOf
      (mergeSection doc3 sec3 marker3) = false :=
  ⟨by decide, by decide, by decide, by decide⟩

/-- C5: the claim that a merge output never contains two occurrences of the
subsection marker heading line fails on the code: when the existing
destination already holds the marker twice, the tail kept after the next
`## ` heading still contains the second copy, and the normalized section
re-supplies the first. -/
theorem C5_counterexample :
    countAnchored marker3 (mergeSection doc5 sec3 marker3) = 2 := by decide

/-- C7: the claim that the normalizer is idempotent on every input fails on
the code: a blockquote body that itself begins a labelled blockquote leaves a
line-initial `>` in the output, which the next run wraps again (for
`processContent` of transform-migration-docs.ts and likewise for
`convertBlockquotesToAsides` of transform-config-docs.ts). -/
theorem C7_counterexample :
    processContent (processContent bq7a) ≠ processContent bq7a ∧
    convertBlockquotesToAsides (convertBlockquotesToAsides bq7b) ≠
      convertBlockquotesToAsides bq7b :=
  ⟨by decide, by decide⟩

/-- C8: the claim that lines inside fenced code blocks are never rewritten
fails on the code: the blockquote regexes are fence-unaware, so a line inside
a code fence that looks like a labelled blockquote is rewritten into an Aside
by both normalizers. -/
theorem C8_counterexample :
    processContent fence8 = "```\n<Aside type=\"note\">\nx\n</Aside>\n```".data ∧
    processContent fence8 ≠ fence8 ∧
    convertBlockquotesToAsides fence8 ≠ fence8 :=
  ⟨by decide, by decide, by decide⟩

/-! ### The normalizer passes are the identity on blockquote-free text -/

theorem typedPassAux_noop (label atype : Str) :
    ∀ (s : Str) (f : Nat) (atStart : Bool), noBq atStart s = true →
      typedPassAux label atype f atStart s = s := by
  intro s
  induction s with
  | nil => intro f atStart h; cases f <;> rfl
  | cons c rest ih =>
    intro f atStart h
    cases f with
    | zero => rfl
    | succ f =>
      have h1 : (atStart && (c == '>')) = false := by
        cases hab : atStart && (c == '>')
        · rfl
        · simp [noBq, hab] at h
      have h2 : noBq (c == '\n') rest = true := by
        simp only [noBq, Bool.and_eq_true] at h
        exact h.2
      simp only [typedPassAux, h1, Bool.false_eq_true, if_false]
      rw [ih f (c == '\n') h2]

theorem genericPassAux_noop :
    ∀ (s : Str) (f : Nat) (atStart : Bool), noBq atStart s = true →
      genericPassAux f atStart s = s := by
  intro s
  induction s with
  | nil => intro f atStart h; cases f <;> rfl
  | cons c rest ih =>
    intro f atStart h
    cases f with
    | zero => rfl
    | succ f =>
      have h1 : (atStart && (c == '>')) = false := by
        cases hab : atStart && (c == '>')
        · rfl
        · simp [noBq, hab] at h
      have h2 : noBq (c == '\n') rest = true := by
        simp only [noBq, Bool.and_eq_true] at h
        exact h.2
      simp only [genericPassAux, h1, Bool.false_eq_true, if_false]
      rw [ih f (c == '\n') h2]

theorem typedPass_noop (label atype s : Str) (h : noBq true s = true) :
    typedPass label atype s = s :=
  typedPassAux_noop label atype s (s.length + 1) true h

theorem processContent_noop (s : Str) (h : noBq true s = true) :
    processContent s = s := by
  unfold processContent
  rw [typedPass_noop _ _ _ h, typedPass_noop _ _ _ h, typedPass_noop _ _ _ h,
    typedPass_noop _ _ _ h]

theorem convert_noop (s : Str) (h : noBq true s = true) :
    convertBlockquotesToAsides s = s := by
  unfold convertBlockquotesToAsides
  rw [typedPass_noop _ _ _ h, typedPass_noop _ _ _ h, typedPass_noop _ _ _ h,
    typedPass_noop _ _ _ h]
  exact genericPassAux_noop s (s.length + 1) true h

/-- C7 (amended): the normalizer is idempotent on every input whose
normalized output contains no remaining line-initial blockquote marker — in
particular an already-converted Aside block is never wrapped a second time;
unrestricted idempotence fails only when a blockquote body itself
re-introduces a line-initial `>` (see the counterexample). -/
theorem C7_idempotent_on_clean (s : Str) :
    (noBq true (processContent s) = true →
      processContent (processContent s) = processContent s) ∧
    (noBq true (convertBlockquotesToAsides s) = true →
      convertBlockquotesToAsides (convertBlockquotesToAsides s) =
        convertBlockquotesToAsides s) :=
  ⟨fun h => processContent_noop _ h, fun h => convert_noop _ h⟩

/-- Witness for C7 at a concrete already-normalized callout. -/
theorem C7_idempotent_on_clean_witness :
    processContent (processContent bq7w) = processContent bq7w ∧
    convertBlockquotesToAsides (convertBlockquotesToAsides bq7w) =
      convertBlockquotesToAsides bq7w :=
  ⟨(C7_idempotent_on_clean bq7w).1 (by decide),
   (C7_idempotent_on_clean bq7w).2 (by decide)⟩

/-- C8 (amended): content with no line-initial blockquote marker passes
through both normalizers unchanged — in particular heading lines are never
rewritten — but fenced code blocks are not protected as such: a fence line
matching a blockquote pattern is rewritten (see the counterexample). -/
theorem C8_passthrough (s : Str) (h : noBq true s = true) :
    processContent s = s ∧ convertBlockquotesToAsides s = s :=
  ⟨processContent_noop s h, convert_noop s h⟩

/-- Witness for C8 at concrete heading/prose/fence content. -/
theorem C8_passthrough_witness :
    processContent clean8 = clean8 ∧ convertBlockquotesToAsides clean8 = clean8 :=
  C8_passthrough clean8 (by decide)

/-! ### Substring-occurrence lemmas -/

theorem pOf_nlskip (m : Str) :
    ∀ (x y : Str), '\n' ∉ m → m.isPrefixOf (x ++ '\n' :: y) = m.isPrefixOf x := by
  induction m with
  | nil => intro x y h; simp [List.isPrefixOf]
  | cons c cs ih =>
    intro x y hnl
    simp only [List.mem_cons, not_or] at hnl
    have hc : (c == '\n') = false := by
      simp only [beq_eq_false_iff_ne]
      exact fun h => hnl.1 h.symm
    cases x with
    | nil => simp [List.isPrefixOf, hc]
    | cons a xs =>
      simp only [List.cons_append, List.isPrefixOf, List.append_eq]
      rw [ih xs y hnl.2]

theorem pOf_nil_of_ne (m : Str) (hm : m ≠ []) : m.isPrefixOf ([] : Str) = false := by
  cases m with
  | nil => exact absurd rfl hm
  | cons c cs => rfl

theorem countSub_nil (m : Str) (hm : m ≠ []) : countSub m [] = 0 := by
  simp [countSub, pOf_nil_of_ne m hm]

theorem countSub_ge_end (m s : Str) :
    (if m.isPrefixOf [] then 1 else 0) ≤ countSub m s := by
  induction s with
  | nil => simp [countSub]
  | cons c s ih => exact le_trans ih (Nat.le_add_left _ _)

theorem countSub_append_right_le (m a b : Str) : countSub m b ≤ countSub m (a ++ b) := by
  induction a with
  | nil => simp
  | cons c a ih =>
    simp only [List.cons_append, countSub]
    exact le_trans ih (Nat.le_add_left _ _)

theorem countSub_take_le (m : Str) :
    ∀ (s : Str) (k : Nat), countSub m (s.take k) ≤ countSub m s := by
  intro s
  induction s with
  | nil => intro k; simp
  | cons c s ih =>
    intro k
    cases k with
    | zero =>
      simpa [countSub] using countSub_ge_end m (c :: s)
    | succ k =>
      simp only [List.take_succ_cons, countSub]
      have hmono : (if m.isPrefixOf (c :: s.take k) then 1 else 0) ≤
          (if m.isPrefixOf (c :: s) then 1 else 0) := by
        cases hp : m.isPrefixOf (c :: s.take k) with
        | false => simp
        | true =>
          have h2 : m.isPrefixOf (c :: s) = true :=
            pOf_take m (c :: s) (k+1) (by simpa [List.take_succ_cons] using hp)
          simp [h2]
      exact Nat.add_le_add hmono (ih k)

theorem countSub_drop_le (m : Str) :
    ∀ (s : Str) (k : Nat), countSub m (s.drop k) ≤ countSub m s := by
  intro s
  induction s with
  | nil => intro k; simp
  | cons c s ih =>
    intro k
    cases k with
    | zero => simp
    | succ k =>
      simp only [List.drop_succ_cons]
      exact le_trans (ih k) (Nat.le_add_left _ _)

theorem countSub_dropWhile_le (m : Str) (p : Char → Bool) (s : Str) :
    countSub m (s.dropWhile p) ≤ countSub m s := by
  induction s with
  | nil => simp
  | cons c s ih =>
    by_cases hp : p c
    · simp only [List.dropWhile_cons_of_pos hp]
      exact le_trans ih (Nat.le_add_left _ _)
    · simp [List.dropWhile_cons_of_neg hp]

theorem trimRight_take (s : Str) : ∃ k, trimRight s = s.take k := by
  induction s with
  | nil => exact ⟨0, rfl⟩
  | cons c s ih =>
    obtain ⟨k, hk⟩ := ih
    cases h : trimRight s with
    | nil =>
      by_cases hws : isWs c
      · exact ⟨0, by simp [trimRight, h, hws]⟩
      · exact ⟨1, by simp [trimRight, h, hws]⟩
    | cons a as =>
      refine ⟨k+1, ?_⟩
      have h2 : trimRight (c :: s) = c :: trimRight s := by
        rw [trimRight, h]
      rw [h2, hk, List.take_succ_cons]

theorem countSub_trimRight_le (m s : Str) : countSub m (trimRight s) ≤ countSub m s := by
  obtain ⟨k, hk⟩ := trimRight_take s
  rw [hk]
  exact countSub_take_le m s k

theorem countSub_trim_le (m s : Str) : countSub m (trimStr s) ≤ countSub m s := by
  unfold trimStr
  exact le_trans (countSub_trimRight_le m _) (countSub_dropWhile_le m isWs s)

theorem countSub_cons_nl (m b : Str) (hm : m ≠ []) (hnl : '\n' ∉ m) :
    countSub m ('\n' :: b) = countSub m b := by
  obtain ⟨c, cs, rfl⟩ : ∃ c cs, m = c :: cs := by
    cases m with
    | nil => exact absurd rfl hm
    | cons c cs => exact ⟨c, cs, rfl⟩
  simp only [List.mem_cons, not_or] at hnl
  have hc : (c == '\n') = false := by
    simp only [beq_eq_false_iff_ne]
    exact fun h => hnl.1 h.symm
  simp [countSub, List.isPrefixOf, hc]

theorem countSub_append_nlhead (m : Str) (hm : m ≠ []) (hnl : '\n' ∉ m) :
    ∀ (a b' : Str), countSub m (a ++ '\n' :: b') = countSub m a + countSub m ('\n' :: b') := by
  intro a b'
  induction a with
  | nil => simp [countSub_nil m hm]
  | cons c a ih =>
    simp only [List.cons_append, countSub, List.append_eq]
    have h2 : m.isPrefixOf (c :: (a ++ '\n' :: b')) = m.isPrefixOf (c :: a) := by
      rw [← List.cons_append]
      exact pOf_nlskip m (c :: a) b' hnl
    simp only [h2]
    rw [ih]
    have h6 : countSub m ('\n' :: b') =
        (if List.isPrefixOf m ('\n' :: b') = true then 1 else 0) + countSub m b' := rfl
    omega

theorem countSub_middle_ge (m : Str) (hm : m ≠ []) :
    ∀ (a c : Str), countSub m a + 1 + countSub m c ≤ countSub m (a ++ (m ++ c)) := by
  intro a
  induction a with
  | nil =>
    intro c
    obtain ⟨d, ds, hd⟩ : ∃ d ds, m = d :: ds := by
      cases m with
      | nil => exact absurd rfl hm
      | cons d ds => exact ⟨d, ds, rfl⟩
    rw [countSub_nil m hm, List.nil_append]
    have h1 : countSub m (m ++ c) = (if m.isPrefixOf (m ++ c) then 1 else 0) +
        countSub m (ds ++ c) := by
      conv_lhs => rw [hd, List.cons_append]
      simp only [countSub, List.append_eq, ← List.cons_append, ← hd]
    have hp : m.isPrefixOf (m ++ c) = true := pOf_self m c
    rw [h1]
    have h5 : (if m.isPrefixOf (m ++ c) = true then 1 else 0) = 1 := by simp [hp]
    have h3 : countSub m c ≤ countSub m (ds ++ c) := countSub_append_right_le m ds c
    omega
  | cons x a ih =>
    intro c
    simp only [List.cons_append, countSub, List.append_eq]
    have hmono : (if m.isPrefixOf (x :: a) then 1 else 0) ≤
        (if m.isPrefixOf (x :: (a ++ (m ++ c))) then 1 else 0) := by
      cases hp : m.isPrefixOf (x :: a) with
      | false => simp
      | true =>
        have h2 : m.isPrefixOf (x :: (a ++ (m ++ c))) = true := by
          rw [← List.cons_append]
          exact pOf_append m (x :: a) (m ++ c) hp
        simp [h2]
    have h4 := ih c
    omega

theorem countAnch_le_countSub (m : Str) :
    ∀ (s : Str) (b : Bool), countAnch m b s ≤ countSub m s := by
  intro s
  induction s with
  | nil =>
    intro b
    simp only [countAnch, countSub]
    cases b <;> simp
  | cons c s ih =>
    intro b
    simp only [countAnch, countSub]
    have hmono : (if b && m.isPrefixOf (c :: s) then 1 else 0) ≤
        (if m.isPrefixOf (c :: s) then 1 else 0) := by
      cases b <;> simp
    exact Nat.add_le_add hmono (ih _)

theorem countSub_merge_shape (m A B C : Str) (hm : m ≠ []) (hnl : '\n' ∉ m) :
    countSub m (A ++ '\n' :: '\n' :: (B ++ '\n' :: '\n' :: (C ++ ['\n']))) =
      countSub m A + countSub m B + countSub m C := by
  rw [countSub_append_nlhead m hm hnl A ('\n' :: (B ++ '\n' :: '\n' :: (C ++ ['\n'])))]
  rw [countSub_cons_nl m _ hm hnl, countSub_cons_nl m _ hm hnl]
  rw [countSub_append_nlhead m hm hnl B ('\n' :: (C ++ ['\n']))]
  rw [countSub_cons_nl m _ hm hnl, countSub_cons_nl m _ hm hnl]
  rw [countSub_append_nlhead m hm hnl C []]
  rw [countSub_cons_nl m _ hm hnl, countSub_nil m hm]
  omega

/-- C5 (amended): when the subsection marker is nonempty, contains no
newline, is found (line-anchored) in the existing destination, and occurs as
a substring at most once in the existing document and at most once in the
normalized section input, the merge output contains at most one line-anchored
occurrence of the marker heading; without the at-most-once hypotheses the
property fails (see the counterexample). -/
theorem C5_unique_marker (ex new m : Str) (i : Nat)
    (hm : m ≠ []) (hnl : '\n' ∉ m)
    (hfound : findAnchored ex m = some i)
    (hex : countSub m ex ≤ 1) (hnew : countSub m new ≤ 1) :
    countAnchored m (mergeSection ex new m) ≤ 1 := by
  have hf := hfound
  unfold findAnchored at hf
  obtain ⟨hp, -, -, -⟩ := scanFirst_some _ _ _ _ hf
  simp only [Bool.and_eq_true] at hp
  have hpre : m.isPrefixOf (ex.drop i) = true := hp.2
  have hdec : ex.drop i = m ++ ex.drop (i + m.length) := by
    have h3 := pOf_decomp m (ex.drop i) hpre
    rwa [List.drop_drop] at h3
  have hexdec : ex = ex.take i ++ (m ++ ex.drop (i + m.length)) := by
    conv_lhs => rw [← List.take_append_drop i ex]
    rw [hdec]
  have hmid := countSub_middle_ge m hm (ex.take i) (ex.drop (i + m.length))
  rw [← hexdec] at hmid
  have h0a : countSub m (ex.take i) = 0 := by omega
  have h0b : countSub m (ex.drop (i + m.length)) = 0 := by omega
  unfold mergeSection
  rw [hfound]
  simp only
  cases h2 : findAnchored (ex.drop (i + m.length)) ("## ".data) with
  | some j =>
    simp only
    refine le_trans (countAnch_le_countSub m _ true) ?_
    rw [countSub_merge_shape m _ _ _ hm hnl]
    have c1 : countSub m (trimStr (ex.take i)) ≤ countSub m (ex.take i) :=
      countSub_trim_le m _
    have c2 : countSub m (trimStr new) ≤ countSub m new := countSub_trim_le m _
    have c3 : countSub m (trimStr ((ex.drop (i + m.length)).drop j)) ≤
        countSub m (ex.drop (i + m.length)) :=
      le_trans (countSub_trim_le m _) (countSub_drop_le m _ j)
    omega
  | none =>
    simp only
    refine le_trans (countAnch_le_countSub m _ true) ?_
    rw [countSub_merge_shape m _ _ _ hm hnl]
    have c1 : countSub m (trimStr (ex.take i)) ≤ countSub m (ex.take i) :=
      countSub_trim_le m _
    have c2 : countSub m (trimStr new) ≤ countSub m new := countSub_trim_le m _
    have c3 : countSub m (trimStr ([] : Str)) = 0 := countSub_nil m hm
    omega

/-- Witness for C5 at a destination holding the marker exactly once. -/
theorem C5_unique_marker_witness :
    countAnchored marker1 (mergeSection doc4 sec5w marker1) ≤ 1 :=
  C5_unique_marker doc4 sec5w marker1 2 (by decide) (by decide) (by decide)
    (by decide) (by decide)

theorem sOf_ext (a c b : Str) (h : b.isSuffixOf c = true) :
    b.isSuffixOf (a ++ c) = true := by
  unfold List.isSuffixOf at h ⊢
  rw [List.reverse_append]
  exact pOf_append _ _ _ h

theorem sOf_refl (b : Str) : b.isSuffixOf b = true := by
  unfold List.isSuffixOf
  exact pOf_refl _

/-- C3 (amended): for a merge whose marker is first found (line-anchored) at
index `i` of the existing destination and whose next `## ` heading is first
found at offset `j` of the remainder, the part before the owned range and the
tail from the next heading onward survive up to outer-whitespace trimming:
the trimmed before-part is literally a prefix of the output and the trimmed
tail (plus the final newline) is literally a suffix of it.  Byte-for-byte
preservation as originally claimed fails because of the trimming (see the
counterexample). -/
theorem C3_trimmed_frame (ex new m : Str) (i j : Nat)
    (hi : (lineStartB ex i && m.isPrefixOf (ex.drop i)) = true)
    (himin : ∀ k, k < i → (lineStartB ex k && m.isPrefixOf (ex.drop k)) = false)
    (hilen : i ≤ ex.length)
    (hj : (lineStartB (ex.drop (i + m.length)) j &&
      ("## ".data).isPrefixOf ((ex.drop (i + m.length)).drop j)) = true)
    (hjmin : ∀ k, k < j → (lineStartB (ex.drop (i + m.length)) k &&
      ("## ".data).isPrefixOf ((ex.drop (i + m.length)).drop k)) = false)
    (hjlen : j ≤ (ex.drop (i + m.length)).length) :
    (trimStr (ex.take i)).isPrefixOf (mergeSection ex new m) = true ∧
    (trimStr ((ex.drop (i + m.length)).drop j) ++ ['\n']).isSuffixOf
      (mergeSection ex new m) = true := by
  have hfound : findAnchored ex m = some i := by
    unfold findAnchored
    exact scanFirst_of _ _ 0 i (Nat.zero_le i) (by omega) hi
      (fun k _ hk => himin k hk)
  have hfound2 : findAnchored (ex.drop (i + m.length)) ("## ".data) = some j := by
    unfold findAnchored
    exact scanFirst_of _ _ 0 j (Nat.zero_le j) (by omega) hj
      (fun k _ hk => hjmin k hk)
  unfold mergeSection
  rw [hfound]
  simp only
  rw [hfound2]
  simp only
  constructor
  · exact pOf_self _ _
  · exact sOf_ext (trimStr (ex.take i)) _ _
      (sOf_ext (['\n', '\n'] : Str) _ _
        (sOf_ext (trimStr new) _ _
          (sOf_ext (['\n', '\n'] : Str) _ _
            (sOf_refl (trimStr ((ex.drop (i + m.length)).drop j) ++ ['\n'])))))

/-- Witness for C3 at a concrete destination. -/
theorem C3_trimmed_frame_witness :
    (trimStr (ex3w.take 4)).isPrefixOf (mergeSection ex3w sec3 "## M".data) = true ∧
    (trimStr ((ex3w.drop (4 + ("## M".data).length)).drop 5) ++ ['\n']).isSuffixOf
      (mergeSection ex3w sec3 "## M".data) = true :=
  C3_trimmed_frame ex3w sec3 "## M".data 4 5 (by decide) (by decide) (by decide)
    (by decide) (by decide) (by decide)

/-! ### Trimming and slicing helpers for the header-preservation claims -/

theorem trimRight_eq_rev (s : Str) : trimRight s = (s.reverse.dropWhile isWs).reverse := by
  induction s with
  | nil => rfl
  | cons c s ih =>
    rw [List.reverse_cons, List.dropWhile_append]
    cases h : trimRight s with
    | nil =>
      have h2 : s.reverse.dropWhile isWs = [] := by
        rw [ih] at h
        exact List.reverse_eq_nil_iff.mp h
      rw [h2]
      simp only [List.isEmpty_nil, if_true]
      by_cases hc : isWs c
      · rw [List.dropWhile_cons_of_pos hc]
        simp [trimRight, h, hc]
      · rw [List.dropWhile_cons_of_neg hc]
        simp [trimRight, h, hc]
    | cons t ts =>
      have h2 : s.reverse.dropWhile isWs ≠ [] := by
        intro hx
        rw [ih, hx] at h
        simp at h
      rw [if_neg (by simpa using h2)]
      rw [List.reverse_append]
      have h3 : trimRight (c :: s) = c :: trimRight s := by
        rw [trimRight, h]
      rw [h3, ih]
      simp

theorem pOf_trimRight (as b : Str) (c : Char) (hc : isWs c = false) :
    ((as ++ [c]).isPrefixOf (trimRight ((as ++ [c]) ++ b))) = true := by
  rw [trimRight_eq_rev, List.reverse_append, List.reverse_append, List.reverse_cons,
    List.reverse_nil, List.nil_append, List.singleton_append, List.dropWhile_append]
  by_cases hb : (b.reverse.dropWhile isWs).isEmpty
  · rw [if_pos hb, List.dropWhile_cons_of_neg (by simp [hc])]
    rw [List.reverse_cons, List.reverse_reverse]
    exact pOf_refl _
  · rw [if_neg hb, List.reverse_append, List.reverse_cons, List.reverse_reverse]
    exact pOf_self _ _

theorem take_append_ge (l₁ l₂ : Str) (n : Nat) (h : l₁.length ≤ n) :
    (l₁ ++ l₂).take n = l₁ ++ l₂.take (n - l₁.length) := by
  induction l₁ generalizing n with
  | nil => simp
  | cons c l ih =>
    cases n with
    | zero => simp at h
    | succ n =>
      simp only [List.cons_append, List.take_succ_cons, List.length_cons]
      rw [ih n (by simpa using h)]
      simp [Nat.succ_sub_succ]

theorem dropWhile_eq_dropLen (p : Char → Bool) (s : Str) :
    s.dropWhile p = s.drop ((s.takeWhile p).length) := by
  induction s with
  | nil => rfl
  | cons c s ih =>
    by_cases hp : p c
    · rw [List.dropWhile_cons_of_pos hp, List.takeWhile_cons_of_pos hp]
      simpa using ih
    · rw [List.dropWhile_cons_of_neg hp, List.takeWhile_cons_of_neg hp]
      rfl

theorem countSub_pos_of_pOf (m s : Str) (h : m.isPrefixOf s = true) :
    1 ≤ countSub m s := by
  cases s with
  | nil => simp [countSub, h]
  | cons c s => simp [countSub, h]

/-! ### Structure of `readExistingFrontmatter` on a well-formed header -/

theorem readFm_some (bfm r : Str)
    (hmin : ∀ k, k < 4 + bfm.length → 4 ≤ k →
      ("\n---".data).isPrefixOf (("---\n".data ++ bfm ++ "\n---".data ++ r).drop k) = false) :
    ∃ tl, readExistingFrontmatter (some ("---\n".data ++ bfm ++ "\n---".data ++ r)) =
      some (("---\n".data ++ bfm ++ "\n---".data) ++ tl) := by
  have e1 : ("---\n".data).length = 4 := by decide
  have e2 : ("\n---".data).length = 4 := by decide
  have hguard : ("---\n".data).isPrefixOf
      ("---\n".data ++ bfm ++ "\n---".data ++ r) = true := pOf_self _ _
  have hXlen : ("---\n".data ++ bfm ++ "\n---".data ++ r).length =
      bfm.length + r.length + 8 := by
    simp only [List.length_append, e1, e2]
    omega
  have hassoc1 : "---\n".data ++ bfm ++ "\n---".data ++ r =
      ("---\n".data ++ bfm) ++ ("\n---".data ++ r) := by
    simp [List.append_assoc]
  have hassoc2 : "---\n".data ++ bfm ++ "\n---".data ++ r =
      ("---\n".data ++ bfm ++ "\n---".data) ++ r := by
    simp [List.append_assoc]
  have hdropMid : ("---\n".data ++ bfm ++ "\n---".data ++ r).drop (4 + bfm.length) =
      "\n---".data ++ r := by
    rw [hassoc1]
    exact List.drop_left' (by simp only [List.length_append, e1]; try omega)
  have hscan : scanFirst
      (fun j => ("\n---".data).isPrefixOf
        (("---\n".data ++ bfm ++ "\n---".data ++ r).drop j)) 4
      (("---\n".data ++ bfm ++ "\n---".data ++ r).length + 1) = some (4 + bfm.length) := by
    apply scanFirst_of
    · omega
    · omega
    · rw [hdropMid]
      exact pOf_self _ _
    · intro k hk4 hklt
      exact hmin k hklt hk4
  have htake : ("---\n".data ++ bfm ++ "\n---".data ++ r).take (4 + bfm.length + 4) =
      "---\n".data ++ bfm ++ "\n---".data := by
    rw [hassoc2]
    refine List.take_left' ?_
    simp only [List.length_append, e1, e2]
    try omega
  rw [readExistingFrontmatter, if_pos hguard, hscan]
  simp only
  cases hic : importChain
      ((("---\n".data ++ bfm ++ "\n---".data ++ r).drop (4 + bfm.length + 4)).length + 1)
      (("---\n".data ++ bfm ++ "\n---".data ++ r).drop (4 + bfm.length + 4)) with
  | some n =>
    exact ⟨'\n' :: (trimStr ((("---\n".data ++ bfm ++ "\n---".data ++ r).drop
      (4 + bfm.length + 4)).take n) ++ ['\n']), by rw [htake]⟩
  | none =>
    exact ⟨'\n' :: '\n' :: (importStmt ++ ['\n']), by rw [htake]⟩

theorem importChain_none_of (f : Nat) (s : Str)
    (h : ("import".data).isPrefixOf (s.dropWhile isWs) = false) :
    importChain (f + 1) s = none := by
  have h2 : ("import".data).isPrefixOf (s.drop ((s.takeWhile isWs).length)) = false := by
    rwa [← dropWhile_eq_dropLen]
  simp [importChain, h2]

/-- C10: on an existing destination that begins with a frontmatter block with
no import statements following it, `readExistingFrontmatter` returns the
original frontmatter followed by a generated
`import … from the starlight components module` line, so the preamble of a
rewrite contains an import line that was not present after the original
frontmatter. -/
theorem C10_import_added (bfm r : Str)
    (hmin : ∀ k, k < 4 + bfm.length → 4 ≤ k →
      ("\n---".data).isPrefixOf (("---\n".data ++ bfm ++ "\n---".data ++ r).drop k) = false)
    (hni : ("import".data).isPrefixOf (r.dropWhile isWs) = false) :
    readExistingFrontmatter (some ("---\n".data ++ bfm ++ "\n---".data ++ r)) =
      some (("---\n".data ++ bfm ++ "\n---".data) ++ '\n' :: '\n' :: (importStmt ++ ['\n'])) ∧
    1 ≤ countSub ("import".data)
      (("---\n".data ++ bfm ++ "\n---".data) ++ '\n' :: '\n' :: (importStmt ++ ['\n'])) := by
  constructor
  · have e1 : ("---\n".data).length = 4 := by decide
    have e2 : ("\n---".data).length = 4 := by decide
    have hguard : ("---\n".data).isPrefixOf
        ("---\n".data ++ bfm ++ "\n---".data ++ r) = true := pOf_self _ _
    have hXlen : ("---\n".data ++ bfm ++ "\n---".data ++ r).length =
        bfm.length + r.length + 8 := by
      simp only [List.length_append, e1, e2]
      omega
    have hassoc1 : "---\n".data ++ bfm ++ "\n---".data ++ r =
        ("---\n".data ++ bfm) ++ ("\n---".data ++ r) := by
      simp [List.append_assoc]
    have hassoc2 : "---\n".data ++ bfm ++ "\n---".data ++ r =
        ("---\n".data ++ bfm ++ "\n---".data) ++ r := by
      simp [List.append_assoc]
    have hdropMid : ("---\n".data ++ bfm ++ "\n---".data ++ r).drop (4 + bfm.length) =
        "\n---".data ++ r := by
      rw [hassoc1]
      exact List.drop_left' (by simp only [List.length_append, e1]; try omega)
    have hscan : scanFirst
        (fun j => ("\n---".data).isPrefixOf
          (("---\n".data ++ bfm ++ "\n---".data ++ r).drop j)) 4
        (("---\n".data ++ bfm ++ "\n---".data ++ r).length + 1) = some (4 + bfm.length) := by
      apply scanFirst_of
      · omega
      · omega
      · rw [hdropMid]
        exact pOf_self _ _
      · intro k hk4 hklt
        exact hmin k hklt hk4
    have htake : ("---\n".data ++ bfm ++ "\n---".data ++ r).take (4 + bfm.length + 4) =
        "---\n".data ++ bfm ++ "\n---".data := by
      rw [hassoc2]
      refine List.take_left' ?_
      simp only [List.length_append, e1, e2]
      try omega
    have hdropAfter : ("---\n".data ++ bfm ++ "\n---".data ++ r).drop (4 + bfm.length + 4) =
        r := by
      rw [hassoc2]
      refine List.drop_left' ?_
      simp only [List.length_append, e1, e2]
      try omega
    have hic : importChain
        ((("---\n".data ++ bfm ++ "\n---".data ++ r).drop (4 + bfm.length + 4)).length + 1)
        (("---\n".data ++ bfm ++ "\n---".data ++ r).drop (4 + bfm.length + 4)) = none := by
      rw [hdropAfter]
      exact importChain_none_of r.length r hni
    rw [readExistingFrontmatter, if_pos hguard, hscan]
    simp only
    rw [hic]
    simp only
    rw [htake]
  · have him : ("import".data) ≠ [] := by decide
    have hinl : '\n' ∉ ("import".data) := by decide
    refine le_trans ?_ (countSub_append_right_le _ _ _)
    rw [countSub_cons_nl _ _ him hinl, countSub_cons_nl _ _ him hinl]
    exact countSub_pos_of_pOf _ _
      (pOf_append _ importStmt _ (by decide))

theorem hdr_trim_keep (hd q : Str) (chead : Char) (tl : Str) (clast : Char) (as : Str)
    (h1 : hd = chead :: tl) (hws : isWs chead = false)
    (h2 : hd = as ++ [clast]) (hlast : isWs clast = false) :
    hd.isPrefixOf (trimStr (hd ++ q)) = true := by
  unfold trimStr
  have hd1 : hd ++ q = chead :: (tl ++ q) := by rw [h1]; rfl
  rw [hd1, List.dropWhile_cons_of_neg (by simp [hws]), ← hd1, h2]
  exact pOf_trimRight as q clast hlast

/-- C9 (counterexample): the original claim fails on the code when the
frontmatter itself contains a line matching the subsection marker (here a
YAML comment line `## Sync` between the fences): the merge finds the marker
inside the header, splits there, and the written output no longer begins with
the header block that `readExistingFrontmatter` itself parses out of the
destination. -/
theorem C9_counterexample :
    readExistingFrontmatter (some doc9) =
      some (hdr9 ++ '\n' :: '\n' :: (importStmt ++ ['\n'])) ∧
    hdr9.isPrefixOf doc9 = true ∧
    hdr9.isPrefixOf (writeMdx (some doc9) "T".data "D".data sec9
      .mergeSec (some marker1)).fst = false :=
  ⟨by decide, by decide, by decide⟩

/-- C9 (amended): for Replace on an existing destination that begins with a
frontmatter header, the header block is reproduced verbatim at the start of
the written output (not regenerated from the section's metadata); for
MergeIntoSubsection the same holds whenever no line-anchored occurrence of
the marker starts inside the header — every occurrence, if any, starts at or
after the header's end — which also covers the marker-not-found append path.
When the header itself contains a marker-matching line, the merge splits
inside the header and destroys it (see the counterexample). -/
theorem C9_header_preserved (bfm r P t d m : Str)
    (hmin : ∀ k, k < 4 + bfm.length → 4 ≤ k →
      ("\n---".data).isPrefixOf (("---\n".data ++ bfm ++ "\n---".data ++ r).drop k) = false)
    (hm : m ≠ [])
    (hout : ∀ i, findAnchored ("---\n".data ++ bfm ++ "\n---".data ++ r) m = some i →
      8 + bfm.length ≤ i) :
    ("---\n".data ++ bfm ++ "\n---".data).isPrefixOf
      (writeMdx (some ("---\n".data ++ bfm ++ "\n---".data ++ r)) t d P
        .replace none).fst = true ∧
    ("---\n".data ++ bfm ++ "\n---".data).isPrefixOf
      (writeMdx (some ("---\n".data ++ bfm ++ "\n---".data ++ r)) t d P
        .mergeSec (some m)).fst = true := by
  obtain ⟨tl0, hread⟩ := readFm_some bfm r hmin
  constructor
  · have hred : (writeMdx (some ("---\n".data ++ bfm ++ "\n---".data ++ r)) t d P
        .replace none).fst =
        (readExistingFrontmatter (some ("---\n".data ++ bfm ++ "\n---".data ++ r))).getD
          (generateFrontmatter t d) ++ '\n' :: (processContent P ++ ['\n']) := rfl
    rw [hred, hread]
    simp only [Option.getD_some]
    exact pOf_append _ _ _ (pOf_self _ _)
  · obtain ⟨c0, ms, rfl⟩ : ∃ c0 ms, m = c0 :: ms := by
      cases m with
      | nil => exact absurd rfl hm
      | cons a b => exact ⟨a, b, rfl⟩
    have hred2 : (writeMdx (some ("---\n".data ++ bfm ++ "\n---".data ++ r)) t d P
        .mergeSec (some (c0 :: ms))).fst =
        mergeSection ("---\n".data ++ bfm ++ "\n---".data ++ r)
          (processContent P) (c0 :: ms) := rfl
    rw [hred2]
    have e1 : ("---\n".data).length = 4 := by decide
    have e2 : ("\n---".data).length = 4 := by decide
    have hassoc2 : "---\n".data ++ bfm ++ "\n---".data ++ r =
        ("---\n".data ++ bfm ++ "\n---".data) ++ r := by
      simp [List.append_assoc]
    have hlenhdr : ("---\n".data ++ bfm ++ "\n---".data).length = 8 + bfm.length := by
      simp only [List.length_append, e1, e2]
      try omega
    have hkeepgen : ∀ q : Str, ("---\n".data ++ bfm ++ "\n---".data).isPrefixOf
        (trimStr (("---\n".data ++ bfm ++ "\n---".data) ++ q)) = true := by
      intro q
      refine hdr_trim_keep _ _ '-' ("--\n".data ++ (bfm ++ "\n---".data)) '-'
        ("---\n".data ++ bfm ++ "\n--".data) ?_ (by decide) ?_ (by decide)
      · have e3 : "---\n".data = '-' :: "--\n".data := by decide
        rw [e3]
        rfl
      · have e4 : "\n---".data = "\n--".data ++ ['-'] := by decide
        rw [e4]
        simp [List.append_assoc]
    unfold mergeSection
    cases h2 : findAnchored ("---\n".data ++ bfm ++ "\n---".data ++ r) (c0 :: ms) with
    | none =>
      simp only
      rw [hassoc2]
      have hsplit := pOf_decomp _ _ (hkeepgen r)
      rw [hsplit]
      exact pOf_append _ _ _ (pOf_self _ _)
    | some i =>
      simp only
      have hi : 8 + bfm.length ≤ i := hout i h2
      have htakei : ("---\n".data ++ bfm ++ "\n---".data ++ r).take i =
          ("---\n".data ++ bfm ++ "\n---".data) ++
            r.take (i - ("---\n".data ++ bfm ++ "\n---".data).length) := by
        rw [hassoc2]
        exact take_append_ge _ _ i (by rw [hlenhdr]; omega)
      rw [htakei]
      have hsplit := pOf_decomp _ _
        (hkeepgen (r.take (i - ("---\n".data ++ bfm ++ "\n---".data).length)))
      rw [hsplit]
      exact pOf_append _ _ _ (pOf_self _ _)

/-- Witness for C9 at a concrete destination with header, prose, and a marker
occurring only after the header. -/
theorem C9_header_preserved_witness :
    ("---\n".data ++ "t: X".data ++ "\n---".data).isPrefixOf
      (writeMdx (some ("---\n".data ++ "t: X".data ++ "\n---".data ++
        "\n\nBody\n## Mk\ns".data)) "T".data "D".data "P".data
        .replace none).fst = true ∧
    ("---\n".data ++ "t: X".data ++ "\n---".data).isPrefixOf
      (writeMdx (some ("---\n".data ++ "t: X".data ++ "\n---".data ++
        "\n\nBody\n## Mk\ns".data)) "T".data "D".data "P".data
        .mergeSec (some "## Mk".data)).fst = true :=
  C9_header_preserved "t: X".data "\n\nBody\n## Mk\ns".data "P".data "T".data "D".data
    "## Mk".data (by decide) (by decide)
    (fun i h => by
      have he : findAnchored ("---\n".data ++ "t: X".data ++ "\n---".data ++
          "\n\nBody\n## Mk\ns".data) ("## Mk".data) = some 19 := by decide
      rw [he] at h
      simp only [Option.some.injEq] at h
      have e : ("t: X".data).length = 4 := by decide
      omega)

/-- Witness for C10 at a concrete destination with a frontmatter block that
has no import statements after it. -/
theorem C10_import_added_witness :
    readExistingFrontmatter (some ("---\n".data ++ "t: X".data ++ "\n---".data ++
        "\n\nBody".data)) =
      some (("---\n".data ++ "t: X".data ++ "\n---".data) ++
        '\n' :: '\n' :: (importStmt ++ ['\n'])) ∧
    1 ≤ countSub ("import".data)
      (("---\n".data ++ "t: X".data ++ "\n---".data) ++
        '\n' :: '\n' :: (importStmt ++ ['\n'])) :=
  C10_import_added "t: X".data "\n\nBody".data (by decide) (by decide)

end DocsSync
